import Mathlib

/-!
Shallow embedding of the lexico.js parser-combinator engine (src/index.ts).

The engine threads a single mutable cursor (`state = { text, position, cut? }`)
through every matcher.  Matchers are JavaScript functions `state -> value` that
signal a parse failure by `throw null`; any other thrown value is a
programming error.  We model a matcher as a pure function that returns both
the outcome (`Except JsError Value`, where `JsError.nullE` is the bare
`throw null` signal) and the cursor state as it stands when the function
returns or throws — JavaScript mutations survive exceptions, so the state on
the error path is significant.

JavaScript `RegExp` values are modelled by a small abstract syntax
(`RegexAst`: empty, single character, concatenation, alternation) paired with
the two flags that are observable on this fragment (`sticky`, `ignoreCase`);
the remaining flags (multiline, dot-all, unicode) modify constructs that the
fragment does not contain.  `reMatches` lists the possible match remainders
in JavaScript's backtracking priority order; the engine's `test` takes the
first.  Recursion of the spec resolver is modelled with an explicit fuel
parameter (`parserF`): JavaScript recursion is bounded only by the call
stack, and every theorem below quantifies over the fuel.
-/

namespace Lexico

/-- JavaScript runtime values that the combinators produce: `undefined`,
`null`, strings, numbers, booleans, arrays and plain objects. -/
inductive Value where
  | undef
  | null
  | str (s : String)
  | num (n : Int)
  | bool (b : Bool)
  | list (vs : List Value)
  | obj (fields : List (String × Value))

/-- JavaScript truthiness, as used by `sequence`'s `retval = p(state) || retval`. -/
def Value.truthy : Value → Bool
  | .undef => false
  | .null => false
  | .str s => !s.isEmpty
  | .num n => n != 0
  | .bool b => b
  | .list _ => true
  | .obj _ => true

/-- A thrown JavaScript value: the bare `throw null` parse-failure signal, or
any other exception (programming errors, `Error(...)` objects). -/
inductive JsError where
  | nullE
  | err (msg : String)

/-- The mutable cursor `state = { text, position, cut? }` of src/index.ts.
The optional `cut` field is `false` when absent. -/
structure ParseState where
  text : List Char
  position : Nat
  cut : Bool

/-- A matcher: `state -> T`, returning the state as left behind on both the
return and the throw path. -/
abbrev JsParser := ParseState → Except JsError Value × ParseState

/-- `List.flatMap` written out, used for the concatenation case of the regex
matcher. -/
def catMap (f : List Char → List (List Char)) : List (List Char) → List (List Char)
  | [] => []
  | x :: xs => f x ++ catMap f xs

/-- Abstract syntax for the regular-expression fragment used by the engine:
the empty pattern, a single character, concatenation and alternation. -/
inductive RegexAst where
  | eps
  | char (c : Char)
  | seq (a b : RegexAst)
  | alt (a b : RegexAst)

/-- A JavaScript `RegExp`: pattern source plus the flags observable on this
fragment. -/
structure JsRegExp where
  source : RegexAst
  sticky : Bool
  ignoreCase : Bool

/-- Character comparison, honouring the `i` (ignore-case) flag. -/
def charMatches (ic : Bool) (pat c : Char) : Bool :=
  if ic then pat.toLower == c.toLower else pat == c

/-- All ways the pattern can match a prefix of `s`, as the list of remainders
in JavaScript's backtracking priority order (leftmost alternative first). -/
def reMatches (ic : Bool) : RegexAst → List Char → List (List Char)
  | .eps, s => [s]
  | .char _, [] => []
  | .char c, a :: rest => if charMatches ic c a then [rest] else []
  | .seq r1 r2, s => catMap (reMatches ic r2) (reMatches ic r1 s)
  | .alt r1 r2, s => reMatches ic r1 s ++ reMatches ic r2 s

/-- `p.lastIndex = idx; p.test(text)` for a sticky pattern `p`: the match is
attempted exactly at `idx` (no forward scanning); on success the new
`lastIndex` (end of the match) is returned.  A `lastIndex` beyond the end of
the input never matches. -/
def stickyTest (r : JsRegExp) (text : List Char) (idx : Nat) : Option Nat :=
  if text.length < idx then none
  else
    match (reMatches r.ignoreCase r.source (text.drop idx)).head? with
    | some rest => some (idx + ((text.drop idx).length - rest.length))
    | none => none

/-- `regex` (src/index.ts lines 192-195): a non-sticky pattern is rebuilt
from its source with only the `"y"` flag, which drops every other flag the
caller supplied (in this model: `ignoreCase`). -/
def regexRebuild (p : JsRegExp) : JsRegExp :=
  if p.sticky then p else { source := p.source, sticky := true, ignoreCase := false }

/-- `regex` (src/index.ts lines 192-205): force stickiness, then on each call
set `lastIndex` to the cursor position and `test`; on success advance the
cursor to the new `lastIndex` and return `undefined`, otherwise `throw null`
leaving the cursor untouched. -/
def regexP (p : JsRegExp) : JsParser := fun s =>
  match stickyTest (regexRebuild p) s.text s.position with
  | some j => (.ok .undef, { s with position := j })
  | none => (.error .nullE, s)

/-- The pattern `RegExp(rEscape(match), "y")` built by `punctuation` and
`literal`: each character of the string, escaped so that it matches
literally, concatenated. -/
def strToRegex (s : String) : RegexAst :=
  s.toList.foldr (fun c r => .seq (.char c) r) .eps

/-- `punctuation` (src/index.ts lines 85-87): anchored exact match of a
string, yielding `undefined`. -/
def punctuationP (match_ : String) : JsParser :=
  regexP { source := strToRegex match_, sticky := true, ignoreCase := false }

/-- `convert` (src/index.ts lines 235-243) after resolution of the inner
spec: run the inner matcher and apply the user conversion to its value; a
conversion that throws is modelled as returning `.error`. -/
def convertRun (cInner : JsParser) (f : Value → Except JsError Value) : JsParser := fun s =>
  match cInner s with
  | (.ok v, s1) => (f v, s1)
  | (.error e, s1) => (.error e, s1)

/-- `literal` (src/index.ts lines 89-91): anchored exact match of a string,
yielding the string itself. -/
def literalP (match_ : String) : JsParser :=
  convertRun (punctuationP match_) (fun _ => .ok (.str match_))

/-- `nothing` (src/index.ts lines 67-69): always succeeds, consumes nothing,
yields `undefined`. -/
def nothingP : JsParser := fun s => (.ok .undef, s)

/-- `cut` (src/index.ts lines 187-190): set the commit flag, yield
`undefined`, consume nothing. -/
def cutP : JsParser := fun s => (.ok .undef, { s with cut := true })

/-- JavaScript `text.substring(a, b)` (swaps and clamps its arguments). -/
def jsSubstring (text : List Char) (a b : Nat) : String :=
  String.mk ((text.drop (min a b)).take (max a b - min a b))

/-- `capture` (src/index.ts lines 245-253) after resolution: run the inner
matcher and yield the substring between the positions before and after. -/
def captureRun (cInner : JsParser) : JsParser := fun s =>
  match cInner s with
  | (.ok _, s1) => (.ok (.str (jsSubstring s1.text s.position s1.position)), s1)
  | (.error e, s1) => (.error e, s1)

/-- `not` (src/index.ts lines 279-291) after resolution: run the inner
matcher inside a bare `catch`.  If the inner matcher throws — whatever it
throws — restore the position and succeed with `undefined`; if it returns,
`throw null` with the state exactly as the inner matcher left it. -/
def notRun (cInner : JsParser) : JsParser := fun s =>
  match cInner s with
  | (.ok _, s1) => (.error .nullE, s1)
  | (.error _, s1) => (.ok .undef, { s1 with position := s.position })

/-- The specification DSL (`spec` in src/index.ts): a string literal, a
pattern, an already-built matcher function, an ordered list (sequence), a
field map (structure), or absent (`undefined`/`null`, resolved to
`nothing`). -/
inductive Spec where
  | strS (s : String)
  | reS (r : JsRegExp)
  | fnS (p : JsParser)
  | listS (l : List Spec)
  | objS (fields : List (String × Spec))
  | noneS

/-- The loop of `sequence` (src/index.ts lines 214-220) over the resolved
element matchers: `retval = p(state) || retval`, i.e. the accumulator is
overwritten only by truthy values, starting from `null`. -/
def seqRun : List JsParser → Value → ParseState → Except JsError Value × ParseState
  | [], retval, s => (.ok retval, s)
  | p :: rest, retval, s =>
    match p s with
    | (.ok v, s1) => seqRun rest (if v.truthy then v else retval) s1
    | (.error e, s1) => (.error e, s1)

/-- The loop of `structure` (src/index.ts lines 226-232): run each field's
matcher in declaration order and record `retval[key] = value` for every key
(reserved names included); a failure anywhere propagates.  (The JavaScript
reordering of integer-like keys is not modelled; grammar field names are
identifiers.) -/
def structRun : List (String × JsParser) → ParseState →
    Except JsError (List (String × Value)) × ParseState
  | [], s => (.ok [], s)
  | (k, p) :: rest, s =>
    match p s with
    | (.ok v, s1) =>
      match structRun rest s1 with
      | (.ok kvs, s2) => (.ok ((k, v) :: kvs), s2)
      | (.error e, s2) => (.error e, s2)
    | (.error e, s1) => (.error e, s1)

/-- The spec resolver `parser` (src/index.ts lines 36-64).  `fuel` bounds the
recursion depth (JavaScript recursion is bounded only by the call stack);
exhausted fuel is a programming error, and every theorem below holds for
every fuel.  String specs resolve to `punctuation`, patterns to `regex`
(yielding `undefined`), functions to themselves, absent specs to `nothing`,
lists to `sequence` (an empty list is the construction-time error
`Error("Sequence is empty")`), and field maps to `structure`. -/
def parserF : Nat → Spec → JsParser
  | 0, _ => fun s => (.error (.err "recursion limit"), s)
  | _ + 1, .strS str => punctuationP str
  | _ + 1, .reS r => regexP r
  | _ + 1, .fnS p => p
  | _ + 1, .noneS => nothingP
  | fuel + 1, .listS l =>
    if l.isEmpty then fun s => (.error (.err "Sequence is empty"), s)
    else fun s => seqRun (l.map (parserF fuel)) Value.null s
  | fuel + 1, .objS fields => fun s =>
    match structRun (fields.map (fun kv => (kv.1, parserF fuel kv.2))) s with
    | (.ok kvs, s1) => (.ok (.obj kvs), s1)
    | (.error e, s1) => (.error e, s1)

/-- Option preprocessing of `options` (src/index.ts lines 154-162): string
elements become `literal` (yielding their own text), patterns become
`capture` over the resolved pattern (always capturing), everything else goes
through the plain resolver. -/
def optToParser (fuel : Nat) : Spec → JsParser
  | .strS str => literalP str
  | .reS r => captureRun (regexP r)
  | sp => parserF fuel sp

/-- The option loop of `options` (src/index.ts lines 163-184).  `wasCut` is
the commit flag inherited from the caller and `begin_` the alternation's
starting position.  Each option is attempted in turn: on success the
inherited commit flag is restored and the value returned; a `null` failure
with the commit flag set breaks out (restoring the inherited flag, failing);
a `null` failure without commit rewinds the position and tries the next
option; any other exception propagates as-is.  Exhaustion restores the
inherited flag and fails. -/
def optionsLoop (wasCut : Bool) (begin_ : Nat) :
    List JsParser → ParseState → Except JsError Value × ParseState
  | [], s => (.error .nullE, { s with cut := wasCut })
  | p :: rest, s =>
    match p s with
    | (.ok v, s1) => (.ok v, { s1 with cut := wasCut })
    | (.error .nullE, s1) =>
      if s1.cut then (.error .nullE, { s1 with cut := wasCut })
      else optionsLoop wasCut begin_ rest { s1 with position := begin_ }
    | (.error (.err m), s1) => (.error (.err m), s1)

/-- `options` after option preprocessing: record the starting position and
the inherited commit flag, clear the flag, and run the option loop. -/
def optionsRunP (opts : List JsParser) : JsParser := fun s =>
  optionsLoop s.cut s.position opts { s with cut := false }

/-- `options` (src/index.ts lines 151-185) over raw specs. -/
def optionsP (fuel : Nat) (args : List Spec) : JsParser :=
  optionsRunP (args.map (optToParser fuel))

/-- `not` (src/index.ts lines 279-291) over a raw spec. -/
def notP (fuel : Nat) (inner : Spec) : JsParser :=
  notRun (parserF fuel inner)

/-- `if (item !== undefined) list.push(item)` of `repeat`
(src/index.ts lines 116-118 and 125-127): only `undefined` is dropped
(`null`, `false`, `0`, `""` are pushed). -/
def pushIfDefined (list : List Value) (item : Value) : List Value :=
  match item with
  | .undef => list
  | v => list ++ [v]

/-- One iteration of the `repeat` do-while body (src/index.ts lines
120-133): run the separator then the inner matcher, appending a defined
inner value; a `null` failure from either is absorbed, rewinding the
position to the start of the iteration; any other exception escapes
(`Sum.inr`). -/
def repeatIter (cSep cInner : JsParser) (list : List Value) (s : ParseState) :
    (List Value × ParseState) ⊕ (JsError × ParseState) :=
  match cSep s with
  | (.ok _, s1) =>
    match cInner s1 with
    | (.ok item, s2) => Sum.inl (pushIfDefined list item, s2)
    | (.error .nullE, s2) => Sum.inl (list, { s2 with position := s.position })
    | (.error (.err m), s2) => Sum.inr (.err m, s2)
  | (.error .nullE, s1) => Sum.inl (list, { s1 with position := s.position })
  | (.error (.err m), s1) => Sum.inr (.err m, s1)

/-- Outcome of the fuelled `repeat` loop: normal exit, an escaping
exception, or fuel exhaustion (JavaScript would keep looping). -/
inductive LoopResult where
  | done (list : List Value) (s : ParseState)
  | thrown (e : JsError) (s : ParseState)
  | fuelOut (list : List Value) (s : ParseState)

/-- The cursor state carried by a loop outcome. -/
def LoopResult.state : LoopResult → ParseState
  | .done _ s => s
  | .thrown _ s => s
  | .fuelOut _ s => s

/-- The `do { ... } while (state.position > begin)` loop of `repeat`
(src/index.ts lines 120-134), with explicit fuel: iterate while an
iteration strictly advances the position. -/
def repeatLoop (cSep cInner : JsParser) : Nat → List Value → ParseState → LoopResult
  | 0, list, s => .fuelOut list s
  | fuel + 1, list, s =>
    match repeatIter cSep cInner list s with
    | .inr (e, s1) => .thrown e s1
    | .inl (list1, s1) =>
      if s.position < s1.position then repeatLoop cSep cInner fuel list1 s1
      else .done list1 s1

/-- `repeat` (src/index.ts lines 104-137) after resolution of inner and
separator: one unconditional first attempt of the inner matcher — whose
failure, `null` or not, propagates — then the guarded loop.  The declared
`max`/`min` bounds are never read by the body and are omitted. -/
def repeatRun (cInner cSep : JsParser) (fuel : Nat) : ParseState → LoopResult := fun s =>
  match cInner s with
  | (.ok first, s1) => repeatLoop cSep cInner fuel (pushIfDefined [] first) s1
  | (.error e, s1) => .thrown e s1

/-- The reserved discard-from-result field names of the spec DSL
(`punctuationKeys` in src/index.ts line 6). -/
def reservedNames : List String := ["_", "__", "___", "____", "_____"]

/-- The cursor state carried by one `repeat` iteration's outcome. -/
def iterState : (List Value × ParseState) ⊕ (JsError × ParseState) → ParseState
  | .inl (_, t) => t
  | .inr (_, t) => t

/-- The cursor-position invariant of §3 of the spec, read as the code
implements it: an invocation never leaves the position below the position at
entry (on failure the position may sit at the failure point; rewinding is
the enclosing alternation's/repetition's job). -/
def PosMono (p : JsParser) : Prop :=
  ∀ s : ParseState, s.position ≤ (p s).2.position

/-- A specification all of whose embedded raw matcher functions (`fnS`
leaves, the `already-a-matcher` case of the DSL) respect the position
invariant.  The declarative shapes carry no side conditions. -/
inductive LeavesMono : Spec → Prop where
  | strS (s : String) : LeavesMono (.strS s)
  | reS (r : JsRegExp) : LeavesMono (.reS r)
  | fnS (p : JsParser) (h : PosMono p) : LeavesMono (.fnS p)
  | listS (l : List Spec) (h : ∀ sp ∈ l, LeavesMono sp) : LeavesMono (.listS l)
  | objS (fields : List (String × Spec)) (h : ∀ kv ∈ fields, LeavesMono kv.2) :
      LeavesMono (.objS fields)
  | noneS : LeavesMono .noneS

/-- `SeqYields ps s vs s2`: running the matchers `ps` left to right from
state `s` succeeds elementwise, yielding the values `vs` and ending in state
`s2`. -/
inductive SeqYields : List JsParser → ParseState → List Value → ParseState → Prop where
  | nil (s : ParseState) : SeqYields [] s [] s
  | cons {p : JsParser} {ps : List JsParser} {s s1 s2 : ParseState} {v : Value}
      {vs : List Value} (h : p s = (.ok v, s1)) (rest : SeqYields ps s1 vs s2) :
      SeqYields (p :: ps) s (v :: vs) s2

theorem mem_catMap {f : List Char → List (List Char)} {xs : List (List Char)}
    {y : List Char} : y ∈ catMap f xs ↔ ∃ x ∈ xs, y ∈ f x := by
  induction xs with
  | nil => simp [catMap]
  | cons x xs ih =>
    simp only [catMap, List.mem_append, ih, List.mem_cons]
    constructor
    · rintro (h | ⟨a, ha, hy⟩)
      · exact ⟨x, Or.inl rfl, h⟩
      · exact ⟨a, Or.inr ha, hy⟩
    · rintro ⟨a, ha | ha, hy⟩
      · subst ha; exact Or.inl hy
      · exact Or.inr ⟨a, ha, hy⟩

theorem reMatches_length {ic : Bool} :
    ∀ (re : RegexAst) (l rest : List Char), rest ∈ reMatches ic re l →
      rest.length ≤ l.length := by
  intro re
  induction re with
  | eps =>
    intro l rest h
    simp [reMatches] at h
    subst h; exact Nat.le_refl _
  | char c =>
    intro l rest h
    cases l with
    | nil => simp [reMatches] at h
    | cons a t =>
      simp only [reMatches] at h
      split at h
      · simp at h; subst h; simp
      · simp at h
  | seq r1 r2 ih1 ih2 =>
    intro l rest h
    simp only [reMatches, mem_catMap] at h
    obtain ⟨mid, hmid, hrest⟩ := h
    exact (ih2 mid rest hrest).trans (ih1 l mid hmid)
  | alt r1 r2 ih1 ih2 =>
    intro l rest h
    simp only [reMatches, List.mem_append] at h
    rcases h with h | h
    · exact ih1 l rest h
    · exact ih2 l rest h

theorem headSomeMem {α : Type} {l : List α} {x : α} (h : l.head? = some x) : x ∈ l := by
  cases l with
  | nil => simp at h
  | cons a t =>
    simp at h
    subst h; exact List.mem_cons_self _ _

theorem stickyTest_le (r : JsRegExp) (t : List Char) (i j : Nat)
    (h : stickyTest r t i = some j) : i ≤ j := by
  by_cases hlt : t.length < i
  · simp [stickyTest, hlt] at h
  · simp only [stickyTest, hlt, if_false] at h
    rcases hh : (reMatches r.ignoreCase r.source (t.drop i)).head? with _ | rest
    · simp [hh] at h
    · simp [hh] at h
      omega

/-- C1 (amended): for every pattern specification, the resolver produces the
`regex` matcher, which is anchored at the current position: the (rebuilt,
sticky) pattern is matched against exactly the input from the cursor onward.
On success the matcher advances the position by the match length and yields
the empty value `undefined` — not the matched substring, which a caller only
obtains through `capture` or by using the pattern as an `options` element —
and on failure it signals `null` without moving the cursor. -/
theorem c1_regex_resolver_anchored (r : JsRegExp) (s : ParseState)
    (hpos : s.position ≤ s.text.length) :
    (∀ rest, (reMatches (regexRebuild r).ignoreCase (regexRebuild r).source
        (s.text.drop s.position)).head? = some rest →
      rest.length ≤ (s.text.drop s.position).length ∧
      regexP r s = (.ok .undef,
        { s with position :=
            s.position + ((s.text.drop s.position).length - rest.length) })) ∧
    ((reMatches (regexRebuild r).ignoreCase (regexRebuild r).source
        (s.text.drop s.position)).head? = none →
      regexP r s = (.error .nullE, s)) := by
  have hnlt : ¬ s.text.length < s.position := Nat.not_lt.mpr hpos
  constructor
  · intro rest h
    refine ⟨reMatches_length _ _ _ (headSomeMem h), ?_⟩
    simp [regexP, stickyTest, hnlt, h]
  · intro h
    simp [regexP, stickyTest, hnlt, h]

/-- C1 witness: matching the (non-sticky) pattern `a` on `"ab"` at position 0
succeeds, advances to 1 and yields `undefined`. -/
theorem c1_witness :
    (['b'] : List Char).length ≤ ((['a', 'b'] : List Char).drop 0).length ∧
    regexP { source := .char 'a', sticky := false, ignoreCase := false }
        ⟨['a', 'b'], 0, false⟩ = (.ok .undef, ⟨['a', 'b'], 1, false⟩) :=
  (c1_regex_resolver_anchored
    { source := .char 'a', sticky := false, ignoreCase := false }
    ⟨['a', 'b'], 0, false⟩ (by decide)).1 ['b'] rfl

/-- C1 counterexample: the claim says the resolver-built pattern matcher
yields the matched substring; on input `"a"` with pattern `a` the code
yields `undefined`, not the string `"a"`. -/
theorem c1_counterexample :
    parserF 1 (.reS { source := .char 'a', sticky := false, ignoreCase := false })
        ⟨['a'], 0, false⟩ = (.ok .undef, ⟨['a'], 1, false⟩) ∧
    Value.undef ≠ Value.str "a" :=
  ⟨rfl, fun h => Value.noConfusion h⟩

/-- C2 (amended): `not(inner)` at entry state `s`: when the inner matcher
throws (anything) `not` succeeds with no value and the position restored to
entry; when the inner matcher succeeds, `not` fails with `null`, leaving the
cursor exactly as the inner matcher left it — the position is NOT rewound to
before `inner` ran; rewinding that failure is the enclosing alternation's or
repetition's responsibility, as for any failing matcher. -/
theorem c2_not_cursor_behavior (cInner : JsParser) (s : ParseState) :
    (∀ e s1, cInner s = (.error e, s1) →
      notRun cInner s = (.ok .undef, { s1 with position := s.position })) ∧
    (∀ v s1, cInner s = (.ok v, s1) → notRun cInner s = (.error .nullE, s1)) := by
  constructor
  · intro e s1 h; simp [notRun, h]
  · intro v s1 h; simp [notRun, h]

/-- C2 witness: `not("a")` on `"b"` succeeds without moving; `not("a")` on
`"a"` fails with the position left at 1, where the inner match ended. -/
theorem c2_witness :
    notRun (parserF 1 (.strS "a")) ⟨['b'], 0, false⟩ =
      (.ok .undef, ⟨['b'], 0, false⟩) ∧
    notRun (parserF 1 (.strS "a")) ⟨['a'], 0, false⟩ =
      (.error .nullE, ⟨['a'], 1, false⟩) :=
  ⟨(c2_not_cursor_behavior (parserF 1 (.strS "a")) ⟨['b'], 0, false⟩).1 _ _ rfl,
   (c2_not_cursor_behavior (parserF 1 (.strS "a")) ⟨['a'], 0, false⟩).2 _ _ rfl⟩

/-- C2 counterexample: `not("a")` on `"ab"` at position 0: the inner matcher
succeeds and `not` fails with the cursor at position 1, not at the entry
position 0 — the claim that `not` leaves the position exactly as it was at
entry in both cases is false on the inner-success path. -/
theorem c2_counterexample :
    notRun (parserF 1 (.strS "a")) ⟨['a', 'b'], 0, false⟩ =
      (.error .nullE, ⟨['a', 'b'], 1, false⟩) ∧
    (1 : Nat) ≠ 0 :=
  ⟨rfl, by decide⟩

/-- C3: the code evaluated at the failing input.  A non-`null` exception —
here one escaping a user-supplied `convert` function — propagates uncaught
through alternation (`options` rethrows when `e != null`) and through
repetition (both the unconditional first attempt and the loop body rethrow),
but negative lookahead's bare `catch` in `not` (src/index.ts lines 284-288)
absorbs it and turns the programming error into a lookahead success,
contradicting the error-handling contract the spec states. -/
theorem c3_not_absorbs_nonnull_error :
    notRun (convertRun nothingP (fun _ => .error (.err "boom"))) ⟨[], 0, false⟩ =
      (.ok .undef, ⟨[], 0, false⟩) ∧
    optionsRunP [convertRun nothingP (fun _ => .error (.err "boom"))] ⟨[], 0, false⟩ =
      (.error (.err "boom"), ⟨[], 0, false⟩) ∧
    repeatRun (fun s => if s.position = 0 then (.ok (.str "x"), { s with position := 1 })
        else (.error (.err "boom"), s)) nothingP 1 ⟨['x'], 0, false⟩ =
      .thrown (.err "boom") ⟨['x'], 1, false⟩ :=
  ⟨rfl, rfl, rfl⟩

/-- C10: a non-sticky pattern is rebuilt from its source with only the
sticky flag, so every other supplied flag is discarded; concretely, the
matcher built from the case-insensitive pattern `/a/i` fails on `"A"`, even
though the pattern itself (sticky, case-insensitive) matches `"A"`. -/
theorem c10_nonsticky_rebuild_drops_flags :
    (∀ r : JsRegExp, r.sticky = false →
      regexRebuild r = { source := r.source, sticky := true, ignoreCase := false }) ∧
    regexP { source := .char 'a', sticky := false, ignoreCase := true }
        ⟨['A'], 0, false⟩ = (.error .nullE, ⟨['A'], 0, false⟩) ∧
    stickyTest { source := .char 'a', sticky := true, ignoreCase := true } ['A'] 0 =
      some 1 := by
  refine ⟨?_, rfl, by decide⟩
  intro r h
  simp [regexRebuild, h]

/-- C10 witness: rebuilding a non-sticky case-insensitive pattern keeps only
the source and the sticky flag. -/
theorem c10_witness :
    regexRebuild { source := .char 'b', sticky := false, ignoreCase := true } =
      { source := .char 'b', sticky := true, ignoreCase := false } :=
  c10_nonsticky_rebuild_drops_flags.1
    { source := .char 'b', sticky := false, ignoreCase := true } rfl

theorem getLastConsEq {α : Type} (v : α) (L : List α) :
    (v :: L).getLast? = some ((L.getLast?).getD v) := by
  induction L generalizing v with
  | nil => rfl
  | cons w L ih => simp [List.getLast?_cons_cons, ih]

theorem getLastConsGetD {α : Type} (v : α) (L : List α) (acc : α) :
    ((v :: L).getLast?).getD acc = (L.getLast?).getD v := by
  rw [getLastConsEq]; rfl

theorem foldl_truthy (vs : List Value) :
    ∀ acc : Value, vs.foldl (fun a v => if v.truthy then v else a) acc =
      ((vs.filter Value.truthy).getLast?).getD acc := by
  induction vs with
  | nil => intro acc; simp
  | cons v vs ih =>
    intro acc
    cases hv : v.truthy with
    | true => simp [List.foldl_cons, hv, List.filter_cons, ih, getLastConsGetD]
    | false => simp [List.foldl_cons, hv, List.filter_cons, ih]

theorem seqRun_yields {ps : List JsParser} {s s2 : ParseState} {vs : List Value}
    (h : SeqYields ps s vs s2) :
    ∀ acc : Value, seqRun ps acc s =
      (.ok (vs.foldl (fun a v => if v.truthy then v else a) acc), s2) := by
  induction h with
  | nil s => intro acc; simp [seqRun]
  | cons hp rest ih =>
    intro acc
    simp only [seqRun, hp, List.foldl_cons]
    exact ih _

/-- C5 (amended): for every non-empty list of specifications whose resolved
elements all succeed, the `sequence` matcher yields the value of the last
element that yielded a truthy value in the JavaScript sense
(`retval = p(state) || retval`): `undefined`, `null`, `false`, `0` and the
empty string do not override earlier values, and a sequence none of whose
elements yields a truthy value yields `null`. -/
theorem c5_sequence_last_truthy (l : List Spec) (fuel : Nat) (s s2 : ParseState)
    (vs : List Value) (hne : l.isEmpty = false)
    (h : SeqYields (l.map (parserF fuel)) s vs s2) :
    parserF (fuel + 1) (.listS l) s =
      (.ok (((vs.filter Value.truthy).getLast?).getD .null), s2) := by
  simp only [parserF, hne, Bool.false_eq_true, if_false]
  rw [seqRun_yields h Value.null, foldl_truthy]

/-- C5 witness: a two-element sequence of matchers yielding `1` then
`false`: the sequence succeeds and yields `1`. -/
theorem c5_witness :
    parserF 2 (.listS [.fnS (fun s => (.ok (.num 1), s)),
        .fnS (fun s => (.ok (.bool false), s))]) ⟨[], 0, false⟩ =
      (.ok (.num 1), ⟨[], 0, false⟩) :=
  c5_sequence_last_truthy
    [.fnS (fun s => (.ok (.num 1), s)), .fnS (fun s => (.ok (.bool false), s))]
    1 ⟨[], 0, false⟩ ⟨[], 0, false⟩ [.num 1, .bool false] rfl
    (SeqYields.cons rfl (SeqYields.cons rfl (SeqYields.nil _)))

/-- C5 counterexample: the claim says the last element yielding a non-empty
(defined) value wins; in `[yield 1, yield false]` the last defined value is
`false`, yet the code — which tests JavaScript truthiness, not
definedness — yields `1`. -/
theorem c5_counterexample :
    parserF 2 (.listS [.fnS (fun s => (.ok (.num 1), s)),
        .fnS (fun s => (.ok (.bool false), s))]) ⟨[], 0, false⟩ =
      (.ok (.num 1), ⟨[], 0, false⟩) ∧
    Value.num 1 ≠ Value.bool false :=
  ⟨rfl, fun h => Value.noConfusion h⟩

theorem structRun_keys :
    ∀ (ps : List (String × JsParser)) (s : ParseState)
      (kvs : List (String × Value)) (s2 : ParseState),
      structRun ps s = (.ok kvs, s2) → kvs.map Prod.fst = ps.map Prod.fst := by
  intro ps
  induction ps with
  | nil =>
    intro s kvs s2 h
    simp [structRun] at h
    simp [h.1]
  | cons kp rest ih =>
    intro s kvs s2 h
    obtain ⟨k, p⟩ := kp
    rcases hp : p s with ⟨e | v, s1⟩
    · simp [structRun, hp] at h
    · rcases hr : structRun rest s1 with ⟨e2 | kvs2, s3⟩
      · simp [structRun, hp, hr] at h
      · simp only [structRun, hp, hr] at h
        have hkvs2 : (k, v) :: kvs2 = kvs := by
          have := congrArg Prod.fst h
          simp at this
          exact this
        subst hkvs2
        simp [ih s1 kvs2 s3 hr]

/-- C6 (amended): the record yielded by a successful `structure` match has
one entry per field — reserved-name fields included — in declaration order:
`structure` stores `retval[key]` for every key, and reserved names are
excluded only from the statically inferred result type, not from the runtime
record; reserved fields are still matched in order for their side effects. -/
theorem c6_structure_one_entry_per_field (fields : List (String × Spec)) (fuel : Nat)
    (s s2 : ParseState) (kvs : List (String × Value))
    (h : parserF (fuel + 1) (.objS fields) s = (.ok (.obj kvs), s2)) :
    kvs.map Prod.fst = fields.map Prod.fst := by
  simp only [parserF] at h
  rcases hr : structRun (fields.map fun kv => (kv.1, parserF fuel kv.2)) s with ⟨e | kvs2, s3⟩
  · simp [hr] at h
  · simp only [hr] at h
    have hkvs : kvs2 = kvs := by
      have := congrArg Prod.fst h
      simp at this
      exact this
    subst hkvs
    have hkeys := structRun_keys _ _ _ _ hr
    simpa [List.map_map, Function.comp_def] using hkeys

/-- C6 witness: a field map with a payload field `a` and a reserved field
`_` yields a record whose keys are exactly `a` then `_`. -/
theorem c6_witness :
    ([("a", Value.num 1), ("_", Value.num 2)].map Prod.fst) =
      ([("a", Spec.fnS (fun s => (.ok (.num 1), s))),
        ("_", Spec.fnS (fun s => (.ok (.num 2), s)))].map Prod.fst) :=
  c6_structure_one_entry_per_field
    [("a", .fnS (fun s => (.ok (.num 1), s))), ("_", .fnS (fun s => (.ok (.num 2), s)))]
    1 ⟨[], 0, false⟩ ⟨[], 0, false⟩ [("a", .num 1), ("_", .num 2)] rfl

/-- C6 counterexample: the claim says the result record contains no entry
for any reserved-name field; matching the field map
`{ a: ..., _: ... }` yields a record that does contain an entry under the
reserved name `_` (carrying the value its matcher yielded). -/
theorem c6_counterexample :
    parserF 2 (.objS [("a", .fnS (fun s => (.ok (.num 1), s))),
        ("_", .fnS (fun s => (.ok (.num 2), s)))]) ⟨[], 0, false⟩ =
      (.ok (.obj [("a", .num 1), ("_", .num 2)]), ⟨[], 0, false⟩) ∧
    "_" ∈ reservedNames :=
  ⟨rfl, by decide⟩

/-- C4: inside an alternation, an option that sets the commit flag during
its attempt and then fails with the parse-failure signal makes the whole
alternation fail immediately: the result does not depend on the options
after it (they are never attempted), the inherited commit flag is restored,
and the position is not rewound by this alternation.  `l1` are the options
already tried (each failing with `null`, leaving the commit flag clear and
the text untouched), `oi` the committing option, `l2` the never-attempted
rest. -/
theorem c4_cut_forecloses_siblings (l1 l2 : List JsParser) (oi : JsParser)
    (s s1 : ParseState)
    (hpre : ∀ p ∈ l1, (p ⟨s.text, s.position, false⟩).1 = .error .nullE ∧
      (p ⟨s.text, s.position, false⟩).2.cut = false ∧
      (p ⟨s.text, s.position, false⟩).2.text = s.text)
    (hoi : oi ⟨s.text, s.position, false⟩ = (.error .nullE, s1))
    (hcut : s1.cut = true) :
    optionsRunP (l1 ++ oi :: l2) s = (.error .nullE, { s1 with cut := s.cut }) := by
  have key : ∀ l1' : List JsParser,
      (∀ p ∈ l1', (p ⟨s.text, s.position, false⟩).1 = .error .nullE ∧
        (p ⟨s.text, s.position, false⟩).2.cut = false ∧
        (p ⟨s.text, s.position, false⟩).2.text = s.text) →
      optionsLoop s.cut s.position (l1' ++ oi :: l2) ⟨s.text, s.position, false⟩ =
        (.error .nullE, { s1 with cut := s.cut }) := by
    intro l1'
    induction l1' with
    | nil =>
      intro _
      simp [optionsLoop, hoi, hcut]
    | cons p rest ih =>
      intro hp
      obtain ⟨h1, h2, h3⟩ := hp p (List.mem_cons_self _ _)
      rcases hps : p ⟨s.text, s.position, false⟩ with ⟨r, t⟩
      rw [hps] at h1 h2 h3
      simp only at h1 h2 h3
      subst h1
      simp only [List.cons_append, optionsLoop, hps, h2, Bool.false_eq_true, if_false]
      have hstate : ({ text := t.text, position := s.position, cut := false } : ParseState) =
          ⟨s.text, s.position, false⟩ := by
        rw [h3]
      rw [hstate]
      exact ih (fun q hq => hp q (List.mem_cons_of_mem _ hq))
  exact key l1 hpre

/-- C4 witness: the spec's scenario `options([X, cut, Y], Z)` with
`X = "1"`, `Y = "a"`, `Z = "1"` on input `"1x"`: X succeeds, cut commits,
Y fails — the whole alternation fails (commit flag restored, position left
at the failure point) even though Z alone would succeed. -/
theorem c4_witness :
    optionsRunP [parserF 3 (.listS [.strS "1", .fnS cutP, .strS "a"]),
        parserF 3 (.strS "1")] ⟨['1', 'x'], 0, false⟩ =
      (.error .nullE, ⟨['1', 'x'], 1, false⟩) :=
  c4_cut_forecloses_siblings [] [parserF 3 (.strS "1")]
    (parserF 3 (.listS [.strS "1", .fnS cutP, .strS "a"]))
    ⟨['1', 'x'], 0, false⟩ ⟨['1', 'x'], 1, true⟩
    (fun p hp => absurd hp (List.not_mem_nil p)) rfl rfl

theorem optionsLoop_cut_restored (wasCut : Bool) (begin_ : Nat) :
    ∀ (opts : List JsParser) (t : ParseState) (r : Except JsError Value)
      (t1 : ParseState), optionsLoop wasCut begin_ opts t = (r, t1) →
      (∀ v, r = .ok v → t1.cut = wasCut) ∧ (r = .error .nullE → t1.cut = wasCut) := by
  intro opts
  induction opts with
  | nil =>
    intro t r t1 h
    simp only [optionsLoop] at h
    have ht1 : t1 = { t with cut := wasCut } := (congrArg Prod.snd h).symm
    subst ht1
    exact ⟨fun _ _ => rfl, fun _ => rfl⟩
  | cons p rest ih =>
    intro t r t1 h
    rcases hp : p t with ⟨e | v, t2⟩
    · cases e with
      | nullE =>
        simp only [optionsLoop, hp] at h
        by_cases hc : t2.cut
        · simp only [hc, if_true] at h
          have ht1 : t1 = { t2 with cut := wasCut } := (congrArg Prod.snd h).symm
          subst ht1
          exact ⟨fun _ _ => rfl, fun _ => rfl⟩
        · simp only [hc, if_false] at h
          exact ih _ _ _ h
      | err m =>
        simp only [optionsLoop, hp] at h
        have hr : r = .error (.err m) := (congrArg Prod.fst h).symm
        subst hr
        refine ⟨fun v hv => ?_, fun hn => ?_⟩
        · exact absurd hv (by simp)
        · exact absurd hn (by simp)
    · simp only [optionsLoop, hp] at h
      have ht1 : t1 = { t2 with cut := wasCut } := (congrArg Prod.snd h).symm
      subst ht1
      exact ⟨fun _ _ => rfl, fun _ => rfl⟩

/-- C9: the commit flag is scoped to the alternation: `options` starts its
option loop with the flag cleared, and whenever it ends in success, in a
commit-foreclosed failure, or in exhaustion of all options (all the `null`
outcomes), the flag is back at the inherited value — commit signals never
leak past the alternation that absorbs them. -/
theorem c9_commit_flag_scoped (opts : List JsParser) (s : ParseState) :
    (optionsRunP opts s = optionsLoop s.cut s.position opts { s with cut := false }) ∧
    (∀ v s1, optionsRunP opts s = (.ok v, s1) → s1.cut = s.cut) ∧
    (∀ s1, optionsRunP opts s = (.error .nullE, s1) → s1.cut = s.cut) := by
  refine ⟨rfl, fun v s1 h => ?_, fun s1 h => ?_⟩
  · exact (optionsLoop_cut_restored s.cut s.position opts _ _ _ h).1 v rfl
  · exact (optionsLoop_cut_restored s.cut s.position opts _ _ _ h).2 rfl

/-- C9 witness: an alternation whose first option is `cut` itself, run with
an inherited commit flag of `true`: on success the flag is restored to
`true`. -/
theorem c9_witness :
    (⟨['a'], 0, true⟩ : ParseState).cut = true ∧
    (⟨['a'], 0, true⟩ : ParseState).cut = true :=
  ⟨(c9_commit_flag_scoped [cutP] ⟨['a'], 0, true⟩).2.1 _ _ rfl,
   (c9_commit_flag_scoped [] ⟨['a'], 0, true⟩).2.2 _ rfl⟩

/-- C8: `repeat(inner)` with no separator over an inner matcher that always
succeeds consuming zero characters terminates, and its do-while loop runs
exactly one iteration: whatever fuel beyond 1 the loop is given, it returns
the result the very first iteration produced, because that iteration's end
position equals its start position and the progress guard
(`while (state.position > begin)`) stops the loop. -/
theorem c8_zero_width_repeat_one_iteration (cInner : JsParser)
    (h : ∀ t, ∃ v t1, cInner t = (.ok v, t1) ∧ t1.position = t.position)
    (fuel : Nat) (s : ParseState) :
    ∃ out t, repeatRun cInner nothingP (fuel + 1) s = .done out t ∧
      repeatRun cInner nothingP 1 s = .done out t ∧ t.position = s.position := by
  obtain ⟨v, s1, hv, hp1⟩ := h s
  obtain ⟨v2, s2, hv2, hp2⟩ := h s1
  refine ⟨pushIfDefined (pushIfDefined [] v) v2, s2, ?_, ?_, by rw [hp2, hp1]⟩
  · simp [repeatRun, hv, repeatLoop, repeatIter, nothingP, hv2, hp2]
  · simp [repeatRun, hv, repeatLoop, repeatIter, nothingP, hv2, hp2]

/-- C8 witness: `repeat(nothing)` on `"x"` with generous fuel stops after
one iteration at position 0. -/
theorem c8_witness :
    ∃ out t, repeatRun nothingP nothingP 5 ⟨['x'], 0, false⟩ = .done out t ∧
      repeatRun nothingP nothingP 1 ⟨['x'], 0, false⟩ = .done out t ∧
      t.position = (⟨['x'], 0, false⟩ : ParseState).position :=
  c8_zero_width_repeat_one_iteration nothingP (fun t => ⟨.undef, t, rfl, rfl⟩) 4
    ⟨['x'], 0, false⟩

theorem stickyTest_pos_le (r : JsRegExp) (t : List Char) (i j : Nat)
    (h : stickyTest r t i = some j) : i ≤ j :=
  stickyTest_le r t i j h

theorem regexP_mono (p : JsRegExp) : PosMono (regexP p) := by
  intro s
  rcases h : stickyTest (regexRebuild p) s.text s.position with _ | j
  · simp [regexP, h]
  · simp [regexP, h]
    exact stickyTest_le _ _ _ _ h

theorem convertRun_state (cInner : JsParser) (f : Value → Except JsError Value)
    (s : ParseState) : (convertRun cInner f s).2 = (cInner s).2 := by
  rcases h : cInner s with ⟨e | v, s1⟩ <;> simp [convertRun, h]

theorem captureRun_state (cInner : JsParser) (s : ParseState) :
    (captureRun cInner s).2 = (cInner s).2 := by
  rcases h : cInner s with ⟨e | v, s1⟩ <;> simp [captureRun, h]

theorem punctuationP_mono (str : String) : PosMono (punctuationP str) :=
  regexP_mono _

theorem literalP_mono (str : String) : PosMono (literalP str) := by
  intro s
  simp only [literalP]
  rw [convertRun_state]
  exact punctuationP_mono str s

theorem nothingP_mono : PosMono nothingP := fun _ => Nat.le_refl _

theorem cutP_mono : PosMono cutP := fun _ => Nat.le_refl _

theorem captureRun_mono (cInner : JsParser) (h : PosMono cInner) :
    PosMono (captureRun cInner) := by
  intro s
  rw [captureRun_state]
  exact h s

theorem notRun_mono (cInner : JsParser) (h : PosMono cInner) :
    PosMono (notRun cInner) := by
  intro s
  rcases hc : cInner s with ⟨e | v, s1⟩
  · simp [notRun, hc]
  · simp [notRun, hc]
    have := h s
    rw [hc] at this
    exact this

theorem seqRun_mono (ps : List JsParser) :
    (∀ p ∈ ps, PosMono p) → ∀ (acc : Value) (s : ParseState),
      s.position ≤ (seqRun ps acc s).2.position := by
  induction ps with
  | nil => intro _ acc s; simp [seqRun]
  | cons p rest ih =>
    intro hm acc s
    have hp := hm p (List.mem_cons_self _ _)
    rcases hr : p s with ⟨e | v, s1⟩
    · have := hp s
      rw [hr] at this
      simpa [seqRun, hr] using this
    · have h1 : s.position ≤ s1.position := by
        have := hp s
        rw [hr] at this
        exact this
      have h2 := ih (fun q hq => hm q (List.mem_cons_of_mem _ hq))
        (if v.truthy then v else acc) s1
      simp only [seqRun, hr]
      exact h1.trans h2

theorem structRun_mono (ps : List (String × JsParser)) :
    (∀ kp ∈ ps, PosMono kp.2) → ∀ s : ParseState,
      s.position ≤ (structRun ps s).2.position := by
  induction ps with
  | nil => intro _ s; simp [structRun]
  | cons kp rest ih =>
    intro hm s
    obtain ⟨k, p⟩ := kp
    have hp : PosMono p := hm (k, p) (List.mem_cons_self _ _)
    rcases hr : p s with ⟨e | v, s1⟩
    · have := hp s
      rw [hr] at this
      simpa [structRun, hr] using this
    · have h1 : s.position ≤ s1.position := by
        have := hp s
        rw [hr] at this
        exact this
      have h2 := ih (fun q hq => hm q (List.mem_cons_of_mem _ hq)) s1
      rcases hr2 : structRun rest s1 with ⟨e2 | kvs, s2⟩
      · rw [hr2] at h2
        simp only at h2
        simpa [structRun, hr, hr2] using h1.trans h2
      · rw [hr2] at h2
        simp only at h2
        simpa [structRun, hr, hr2] using h1.trans h2

theorem parserF_mono (fuel : Nat) :
    ∀ sp : Spec, LeavesMono sp → PosMono (parserF fuel sp) := by
  induction fuel with
  | zero => intro sp _ s; simp [parserF]
  | succ fuel ih =>
    intro sp hsp s
    cases hsp with
    | strS str => exact punctuationP_mono str s
    | reS r => exact regexP_mono r s
    | fnS p h => exact h s
    | noneS => exact nothingP_mono s
    | listS l hl =>
      cases hemp : l.isEmpty with
      | true => simp [parserF, hemp]
      | false =>
        simp only [parserF, hemp, Bool.false_eq_true, if_false]
        refine seqRun_mono (l.map (parserF fuel)) ?_ Value.null s
        intro q hq
        obtain ⟨sp1, hsp1, rfl⟩ := List.mem_map.1 hq
        exact ih sp1 (hl sp1 hsp1)
    | objS fields hf =>
      have hmono := structRun_mono (fields.map fun kv => (kv.1, parserF fuel kv.2))
        (by
          intro kp hkp
          obtain ⟨kv, hkv, rfl⟩ := List.mem_map.1 hkp
          exact ih kv.2 (hf kv hkv)) s
      simp only [parserF]
      rcases hr : structRun (fields.map fun kv => (kv.1, parserF fuel kv.2)) s
        with ⟨e | kvs, s1⟩
      · rw [hr] at hmono
        simpa [hr] using hmono
      · rw [hr] at hmono
        simpa [hr] using hmono

theorem optToParser_mono (fuel : Nat) :
    ∀ sp : Spec, LeavesMono sp → PosMono (optToParser fuel sp) := by
  intro sp h
  cases sp with
  | strS str => exact literalP_mono str
  | reS r => exact captureRun_mono _ (regexP_mono r)
  | fnS p => exact parserF_mono fuel _ h
  | listS l => exact parserF_mono fuel _ h
  | objS fields => exact parserF_mono fuel _ h
  | noneS => exact parserF_mono fuel _ h

theorem optionsLoop_mono (wasCut : Bool) (begin_ : Nat) (opts : List JsParser) :
    (∀ p ∈ opts, PosMono p) → ∀ t : ParseState, begin_ ≤ t.position →
      begin_ ≤ (optionsLoop wasCut begin_ opts t).2.position := by
  induction opts with
  | nil => intro _ t ht; simpa [optionsLoop] using ht
  | cons p rest ih =>
    intro hm t ht
    have hp : t.position ≤ (p t).2.position := hm p (List.mem_cons_self _ _) t
    rcases hr : p t with ⟨e | v, t1⟩
    · rw [hr] at hp
      simp only at hp
      cases e with
      | nullE =>
        simp only [optionsLoop, hr]
        by_cases hc : t1.cut
        · simp only [hc, if_true]
          exact ht.trans hp
        · simp only [hc, if_false]
          exact ih (fun q hq => hm q (List.mem_cons_of_mem _ hq)) _ (Nat.le_refl _)
      | err m =>
        simp only [optionsLoop, hr]
        exact ht.trans hp
    · rw [hr] at hp
      simp only at hp
      simp only [optionsLoop, hr]
      exact ht.trans hp

theorem optionsRunP_mono (opts : List JsParser) (h : ∀ p ∈ opts, PosMono p) :
    PosMono (optionsRunP opts) := fun s =>
  optionsLoop_mono s.cut s.position opts h { s with cut := false } (Nat.le_refl _)

theorem repeatIter_mono (cSep cInner : JsParser) (hs : PosMono cSep)
    (hi : PosMono cInner) (list : List Value) (s : ParseState) :
    s.position ≤ (iterState (repeatIter cSep cInner list s)).position := by
  rcases h1 : cSep s with ⟨e1 | v1, s1⟩
  · have ha := hs s
    rw [h1] at ha
    simp only at ha
    cases e1 with
    | nullE => simp [repeatIter, h1, iterState]
    | err m => simpa [repeatIter, h1, iterState] using ha
  · have ha := hs s
    rw [h1] at ha
    simp only at ha
    rcases h2 : cInner s1 with ⟨e2 | v2, s2⟩
    · have hb := hi s1
      rw [h2] at hb
      simp only at hb
      cases e2 with
      | nullE => simp [repeatIter, h1, h2, iterState]
      | err m => simpa [repeatIter, h1, h2, iterState] using ha.trans hb
    · have hb := hi s1
      rw [h2] at hb
      simp only at hb
      simpa [repeatIter, h1, h2, iterState] using ha.trans hb

theorem repeatLoop_mono (cSep cInner : JsParser) (hs : PosMono cSep)
    (hi : PosMono cInner) :
    ∀ (fuel : Nat) (list : List Value) (s : ParseState),
      s.position ≤ ((repeatLoop cSep cInner fuel list s).state).position := by
  intro fuel
  induction fuel with
  | zero => intro list s; simp [repeatLoop, LoopResult.state]
  | succ fuel ih =>
    intro list s
    have hit := repeatIter_mono cSep cInner hs hi list s
    rcases hr : repeatIter cSep cInner list s with ⟨list1, s1⟩ | ⟨e, s1⟩
    · rw [hr] at hit
      simp only [iterState] at hit
      simp only [repeatLoop, hr]
      by_cases hlt : s.position < s1.position
      · simp only [hlt, if_true]
        exact hit.trans (ih list1 s1)
      · simpa [hlt, LoopResult.state] using hit
    · rw [hr] at hit
      simp only [iterState] at hit
      simpa [repeatLoop, hr, LoopResult.state] using hit

theorem repeatRun_mono (cInner cSep : JsParser) (hi : PosMono cInner)
    (hs : PosMono cSep) (fuel : Nat) :
    ∀ s : ParseState, s.position ≤ ((repeatRun cInner cSep fuel s).state).position := by
  intro s
  have h1 := hi s
  rcases hr : cInner s with ⟨e | v, s1⟩
  · rw [hr] at h1
    simpa [repeatRun, hr, LoopResult.state] using h1
  · rw [hr] at h1
    simp only at h1
    simp only [repeatRun, hr]
    exact h1.trans (repeatLoop_mono cSep cInner hs hi fuel _ s1)

/-- C7: the cursor position never drops below the entry position.  The
conjuncts cover (1) every matcher the resolver builds from a specification
whose embedded raw matchers respect the invariant, at every recursion
depth; (2) every alternation built by `options` from such specifications;
(3) every repetition built by `repeat`, at every loop fuel; and (4) every
negative lookahead built by `not`.  Success may only move the position
forward, and a failing matcher leaves the position at or beyond entry —
rewinding is the enclosing alternation's/repetition's responsibility. -/
theorem c7_position_never_decreases :
    (∀ (fuel : Nat) (sp : Spec), LeavesMono sp → PosMono (parserF fuel sp)) ∧
    (∀ (fuel : Nat) (args : List Spec), (∀ sp ∈ args, LeavesMono sp) →
      PosMono (optionsP fuel args)) ∧
    (∀ (fuel lfuel : Nat) (inner sep : Spec), LeavesMono inner → LeavesMono sep →
      ∀ s : ParseState, s.position ≤
        ((repeatRun (parserF fuel inner) (parserF fuel sep) lfuel s).state).position) ∧
    (∀ (fuel : Nat) (inner : Spec), LeavesMono inner → PosMono (notP fuel inner)) := by
  refine ⟨parserF_mono, ?_, ?_, ?_⟩
  · intro fuel args h
    refine optionsRunP_mono _ ?_
    intro p hp
    obtain ⟨sp, hsp, rfl⟩ := List.mem_map.1 hp
    exact optToParser_mono fuel sp (h sp hsp)
  · intro fuel lfuel inner sep hi hsep s
    exact repeatRun_mono _ _ (parserF_mono fuel inner hi) (parserF_mono fuel sep hsep)
      lfuel s
  · intro fuel inner h
    exact notRun_mono _ (parserF_mono fuel inner h)

/-- C7 witness: the resolver-built matcher for the string spec `"a"` run on
`"ab"` leaves the position at or beyond the entry position 0. -/
theorem c7_witness :
    (⟨['a', 'b'], 0, false⟩ : ParseState).position ≤
      (parserF 1 (.strS "a") ⟨['a', 'b'], 0, false⟩).2.position :=
  c7_position_never_decreases.1 1 (.strS "a") (LeavesMono.strS "a")
    ⟨['a', 'b'], 0, false⟩

end Lexico
